import Mathlib

/-!
Verification of the tile-rendering pipeline of the `simplexnoise` tile server
(`main.go`), shallowly embedded over the reals.  Go `float64` arithmetic is
modelled by `ℝ`; Go `int` values that the validation layer guarantees to be
non-negative are modelled by `ℕ`; the external `Noise3`/`Noise4` gradient-noise
primitives are modelled as parameters (arbitrary deterministic functions), as
the spec treats them as provided dependencies.
-/

namespace Simplex

open Real

noncomputable section

/-- Go `type Vector struct \x7b X, Y float64 \x7d`. -/
structure Vector where
  X : ℝ
  Y : ℝ

/-- Go `func (v Vector) Sub(u Vector) Vector`. -/
def Vector.Sub (v u : Vector) : Vector :=
  ⟨v.X - u.X, v.Y - u.Y⟩

/-- Go `func (v Vector) Scale(f float64) Vector`. -/
def Vector.Scale (v : Vector) (f : ℝ) : Vector :=
  ⟨v.X * f, v.Y * f⟩

/-- Go `type Extent struct \x7b Min, Max Vector \x7d`. -/
structure Extent where
  Min : Vector
  Max : Vector

/-- Go `type TileCoords struct \x7b Z, X, Y int \x7d`.  The request-validation layer
only ever hands the core non-negative coordinates, so they are modelled by
`ℕ`. -/
structure TileCoords where
  Z : ℕ
  X : ℕ
  Y : ℕ
  deriving DecidableEq

/-- Go `uint(1) << uint(z)` at 64-bit `uint` width: the shift wraps, giving
`2^z mod 2^64`, i.e. `2^z` for `z ≤ 63` and `0` for `z ≥ 64`. -/
def goUintShift (z : ℕ) : ℕ := 2 ^ z % 2 ^ 64

/-- Go `func tileExtent(coords TileCoords) Extent`: normalise the column/row by
`float64(uint(1)<<uint(coords.Z))`, recentre by `(0.5, 0.5)`, scale by 4.
For `Z ≤ 63` the divisor is exactly `2^Z` (a power of two, exact in
`float64`); for `Z ≥ 64` the wrapped shift is `0` and the Go program divides
by `0.0`, producing non-finite extents — in this real-number embedding that
division yields `0`, and under either semantics the resulting "extent" is
degenerate (no `Min < Max` rectangle of width `4/2^Z`). -/
def tileExtent (coords : TileCoords) : Extent :=
  let extent : Extent :=
    ⟨⟨(coords.X : ℝ) / (goUintShift coords.Z : ℝ), (coords.Y : ℝ) / (goUintShift coords.Z : ℝ)⟩,
     ⟨((coords.X : ℝ) + 1) / (goUintShift coords.Z : ℝ),
      ((coords.Y : ℝ) + 1) / (goUintShift coords.Z : ℝ)⟩⟩
  let mn := (extent.Min.Sub ⟨0.5, 0.5⟩).Scale 4
  let mx := (extent.Max.Sub ⟨0.5, 0.5⟩).Scale 4
  ⟨mn, mx⟩

/-- Go's float-to-integer conversion truncates toward zero (`uint8(r * 0xff)`
for the in-range channel values produced here). -/
def truncToZero (x : ℝ) : ℤ :=
  if 0 ≤ x then ⌊x⌋ else -⌊-x⌋

/-- Go `color.RGBA`: four 8-bit channels.  Channels are modelled as `ℤ` so that
the (unclamped) conversion is stated exactly; all values actually produced
are proved to lie in `[0, 255]`. -/
structure Color where
  r : ℤ
  g : ℤ
  b : ℤ
  a : ℤ
  deriving DecidableEq

/-- The fractional `(r, g, b)` computed by `colouriseByValue` before the
8-bit conversion: seven ordered bands selected by strict comparisons, each
an affine law, with a white default. -/
def colourFrac (value : ℝ) : ℝ × ℝ × ℝ :=
  if value < -0.1 then
    -- Dark blue water
    (0.0, 0.0, 0.4)
  else if value < 0.2 then
    -- Blue water
    let maximum : ℝ := 0.0
    (0.1 + (maximum + value), 0.1 + (maximum + value), 0.5 + (maximum + value))
  else if value < 0.201 then
    -- Yellow sand
    (500 * (0.202 - value), 500 * (0.202 - value), 250 * (0.202 - value))
  else if value < 0.40 then
    -- Grasslands
    let maximum : ℝ := 0.40 + 0.20
    (1.2 * (maximum - value), 1.6 * (maximum - value), 0.8 * (maximum - value))
  else if value < 0.60 then
    -- Greenery
    let maximum : ℝ := 0.60 + 0.30
    (0.2 * (maximum - value), 0.8 * (maximum - value), 0.1 * (maximum - value))
  else if value < 0.90 then
    -- Mountains
    let maximum : ℝ := 0.90
    let minimum : ℝ := 0.10
    let diff : ℝ := maximum - minimum
    (0.8 / diff * (value - minimum), 0.7 / diff * (value - minimum),
      0.6 / diff * (value - minimum))
  else if value < 1.2 then
    -- Pale snow
    (0.8 * value, 0.8 * value, 0.8 * value)
  else
    -- White snow
    (1.0, 1.0, 1.0)

/-- Go `func colouriseByValue(value float64) color.RGBA`: band selection then
`color.RGBA{uint8(r * 0xff), uint8(g * 0xff), uint8(b * 0xff), 0xff}`. -/
def colouriseByValue (value : ℝ) : Color :=
  let rgb := colourFrac value
  ⟨truncToZero (rgb.1 * 0xff), truncToZero (rgb.2.1 * 0xff),
    truncToZero (rgb.2.2 * 0xff), 0xff⟩

/-- The palette mapper exactly as claim C5 words it: seven bands with the
claim's affine laws, channels `⌊·255⌋` toward zero, alpha 255. -/
def claimPalette (v : ℝ) : Color :=
  let rgb : ℝ × ℝ × ℝ :=
    if v < -0.1 then (0, 0, 0.4)
    else if v < 0.2 then (0.1 + v, 0.1 + v, 0.5 + v)
    else if v < 0.201 then (500 * (0.202 - v), 500 * (0.202 - v), 250 * (0.202 - v))
    else if v < 0.40 then (1.2 * (0.60 - v), 1.6 * (0.60 - v), 0.8 * (0.60 - v))
    else if v < 0.60 then (0.2 * (0.90 - v), 0.8 * (0.90 - v), 0.1 * (0.90 - v))
    else if v < 0.90 then
      ((v - 0.10) * 0.8 / 0.80, (v - 0.10) * 0.7 / 0.80, (v - 0.10) * 0.6 / 0.80)
    else if v < 1.2 then (0.8 * v, 0.8 * v, 0.8 * v)
    else (1, 1, 1)
  ⟨truncToZero (rgb.1 * 255), truncToZero (rgb.2.1 * 255), truncToZero (rgb.2.2 * 255), 255⟩

/-- The octave accumulation loop of `simplexTorus`:
`for z := 1; z <= coords.Z+16; z++ { scale *= 2; ...; value += Noise4(...)/scale }`,
modelled by structural recursion on the remaining iteration count, threading
the `scale` accumulator. -/
def octaveLoop (noise : ℝ → ℝ → ℝ → ℝ → ℝ) (cx cy : ℝ) : ℕ → ℝ → ℝ
  | 0, _ => 0
  | n + 1, scale =>
      let scale2 := scale * 2
      noise (Real.cos (cx / 2 * scale2 * π)) (Real.cos (cy / 2 * scale2 * π))
          (Real.sin (cx / 2 * scale2 * π)) (Real.sin (cy / 2 * scale2 * π)) / scale2
        + octaveLoop noise cx cy n scale2

/-- Go `func simplexTorus(c Vector, coords TileCoords) float64`: base octave at
the 4D torus point `(nx, ny, nz, nw)`, then `coords.Z + 16` damped octaves.
The noise primitive `Noise4` is an external dependency, passed as `noise`. -/
def simplexTorus (noise : ℝ → ℝ → ℝ → ℝ → ℝ) (c : Vector) (coords : TileCoords) : ℝ :=
  let nx := Real.cos (c.X / 2 * π)
  let nz := Real.sin (c.X / 2 * π)
  let ny := Real.cos (c.Y / 2 * π)
  let nw := Real.sin (c.Y / 2 * π)
  noise nx ny nz nw + octaveLoop noise c.X c.Y (coords.Z + 16) 1

/-- The elevation field as claim C1 words it: the base-octave noise at the
cos/sin torus point of angles `c.x·π/2`, `c.y·π/2`, plus for each octave
`k = 1 .. Z+16` the noise at the same expressions with the angle multiplied
by `2^k`, divided by `2^k`. -/
def claimTorusSum (noise : ℝ → ℝ → ℝ → ℝ → ℝ) (c : Vector) (Z : ℕ) : ℝ :=
  noise (Real.cos (c.X * π / 2)) (Real.cos (c.Y * π / 2))
      (Real.sin (c.X * π / 2)) (Real.sin (c.Y * π / 2))
    + ∑ k in Finset.Icc 1 (Z + 16),
        noise (Real.cos (c.X * π / 2 * 2 ^ k)) (Real.cos (c.Y * π / 2 * 2 ^ k))
            (Real.sin (c.X * π / 2 * 2 ^ k)) (Real.sin (c.Y * π / 2 * 2 ^ k)) / 2 ^ k

/-- Go `func renderTile(coords TileCoords) image.Image`: a 256×256 buffer whose
pixel `(x, y)` is the palette colour of the elevation at the interpolated
world coordinate; note the `Y` interpolation reuses the `X`-axis span
(`extent.Max.X - extent.Min.X`), exactly as in the source. -/
def renderTile (noise : ℝ → ℝ → ℝ → ℝ → ℝ) (coords : TileCoords) :
    Fin 256 → Fin 256 → Color :=
  fun x y =>
    let extent := tileExtent coords
    let c : Vector :=
      ⟨extent.Min.X + (extent.Max.X - extent.Min.X) * (x : ℝ) / 256,
       extent.Min.Y + (extent.Max.X - extent.Min.X) * (y : ℝ) / 256⟩
    colouriseByValue (simplexTorus noise c coords)

/-- A trivial concrete noise primitive, used only to instantiate witnesses. -/
def zeroNoise : ℝ → ℝ → ℝ → ℝ → ℝ := fun _ _ _ _ => 0

/-- The fractional red channel of the palette mapper. -/
def colR (value : ℝ) : ℝ := (colourFrac value).1

/-- The fractional green channel of the palette mapper. -/
def colG (value : ℝ) : ℝ := (colourFrac value).2.1

/-- The fractional blue channel of the palette mapper. -/
def colB (value : ℝ) : ℝ := (colourFrac value).2.2

/-- Go `math.Mod(x, y)`: the remainder `x - y*trunc(x/y)`, taking the sign
of `x`. -/
def goMod (x y : ℝ) : ℝ := x - y * (truncToZero (x / y) : ℝ)

/-- The hue-sector `switch` of `hslToRGB`; the `default: panic(false)`
branch is modelled by `none`. -/
def hueSector (hueAdj c x : ℝ) : Option (ℝ × ℝ × ℝ) :=
  if hueAdj ≤ 1 then some (c, x, 0)
  else if hueAdj ≤ 2 then some (x, c, 0)
  else if hueAdj ≤ 3 then some (0, c, x)
  else if hueAdj ≤ 4 then some (0, x, c)
  else if hueAdj ≤ 5 then some (x, 0, c)
  else if hueAdj ≤ 6 then some (c, 0, x)
  else none

/-- Go `func hslToRGB(hue, saturation, lightness float64) color.RGBA`.
Every `panic` of the source (the three parameter checks, the unreachable
`default` of the hue switch, and the final range checks on `r`, `g`, `b`)
is modelled by `none`. -/
def hslToRGB (hue saturation lightness : ℝ) : Option Color :=
  if hue < 0 ∨ hue > 360 then none
  else if saturation < 0 ∨ saturation > 1 then none
  else if lightness < 0 ∨ lightness > 1 then none
  else
    let c := (1 - |2 * lightness - 1|) * saturation
    let hueAdj := hue / 60
    let x := c * (1 - |goMod hueAdj 2 - 1|)
    match hueSector hueAdj c x with
    | none => none
    | some rgb =>
        let m := lightness - 0.5 * c
        let r := rgb.1 + m
        let g := rgb.2.1 + m
        let b := rgb.2.2 + m
        if r < 0 ∨ r > 1.0 then none
        else if g < 0 ∨ g > 1.0 then none
        else if b < 0 ∨ b > 1.0 then none
        else some ⟨truncToZero (r * 0xff), truncToZero (g * 0xff), truncToZero (b * 0xff), 0xff⟩

end

/-- Decimal value of a digit string, as computed by `strconv.Atoi` on a
`\d+` match. -/
def natFromDigits (l : List Char) : ℕ :=
  l.foldl (fun n c => 10 * n + (c.toNat - 48)) 0

/-- Maximal-munch digit run, modelling the regex atom `\d+` followed by the
rest of the pattern. -/
def spanDigits : List Char → List Char × List Char
  | [] => ([], [])
  | c :: cs =>
      if c.isDigit then
        let p := spanDigits cs
        (c :: p.1, p.2)
      else ([], c :: cs)

/-- The path regex `^/(\d+)/(\d+)/(\d+)\.png$`: returns the three captured
digit runs when the whole path matches. -/
def matchPath : List Char → Option (List Char × List Char × List Char)
  | '/' :: rest =>
      let p1 := spanDigits rest
      match p1.2 with
      | '/' :: rest2 =>
          let p2 := spanDigits rest2
          match p2.2 with
          | '/' :: rest3 =>
              let p3 := spanDigits rest3
              if p1.1 ≠ [] ∧ p2.1 ≠ [] ∧ p3.1 ≠ [] ∧ p3.2 = ['.', 'p', 'n', 'g'] then
                some (p1.1, p2.1, p3.1)
              else none
          | _ => none
      | _ => none
  | _ => none

/-- Go `strconv.Atoi` on a digit run: fails (with an error the caller turns
into a rejection) when the decimal value overflows a 64-bit `int`. -/
def goAtoi (s : List Char) : Option ℕ :=
  if natFromDigits s ≤ 2 ^ 63 - 1 then some (natFromDigits s) else none

/-- Go `1 << uint(z)` at 64-bit `int` width: `2^z` for `z < 63`, the most
negative `int` for `z = 63`, and `0` for `z ≥ 64`. -/
def goShiftOne (z : ℕ) : ℤ :=
  if z < 63 then 2 ^ z else if z = 63 then -(2 ^ 63) else 0

/-- Go `func extractTileCoords(path string) (TileCoords, error)`: regex
match, three `Atoi` conversions, then the range check
`coords.X < 0 || coords.X >= max || coords.Y < 0 || coords.Y >= max` with
`max := 1 << uint(coords.Z)`.  `none` models a returned error. -/
def extractTileCoords (path : String) : Option TileCoords :=
  match matchPath path.data with
  | none => none
  | some (s1, s2, s3) =>
      match goAtoi s1 with
      | none => none
      | some z =>
          match goAtoi s2 with
          | none => none
          | some x =>
              match goAtoi s3 with
              | none => none
              | some y =>
                  let mx : ℤ := goShiftOne z
                  if (x : ℤ) < 0 ∨ (x : ℤ) ≥ mx ∨ (y : ℤ) < 0 ∨ (y : ℤ) ≥ mx then none
                  else some ⟨z, x, y⟩

/-! ### Helper lemmas -/

/-- Shifting `x` by one world period (4) leaves `cos (x/2 · s · π)` unchanged
whenever the frequency multiplier `s` is an integer. -/
lemma cos_shift4 (x s : ℝ) (n : ℤ) (h : s = (n : ℝ)) :
    Real.cos ((x + 4) / 2 * s * π) = Real.cos (x / 2 * s * π) := by
  have hs : (x + 4) / 2 * s * π = x / 2 * s * π + (n : ℝ) * (2 * π) := by
    rw [← h]; ring
  rw [hs, Real.cos_add_int_mul_two_pi]

/-- Shifting `x` by one world period (4) leaves `sin (x/2 · s · π)` unchanged
whenever the frequency multiplier `s` is an integer. -/
lemma sin_shift4 (x s : ℝ) (n : ℤ) (h : s = (n : ℝ)) :
    Real.sin ((x + 4) / 2 * s * π) = Real.sin (x / 2 * s * π) := by
  have hs : (x + 4) / 2 * s * π = x / 2 * s * π + (n : ℝ) * (2 * π) := by
    rw [← h]; ring
  rw [hs, Real.sin_add_int_mul_two_pi]

/-- Closed form of the octave loop started at scale `2^m`: the `k`-th
iteration contributes the noise at frequency `2^(m+k+1)` divided by
`2^(m+k+1)`. -/
lemma octaveLoop_eq_sum (noise : ℝ → ℝ → ℝ → ℝ → ℝ) (cx cy : ℝ) :
    ∀ (n m : ℕ),
      octaveLoop noise cx cy n ((2 : ℝ) ^ m) =
        ∑ k in Finset.range n,
          noise (Real.cos (cx / 2 * 2 ^ (m + k + 1) * π))
              (Real.cos (cy / 2 * 2 ^ (m + k + 1) * π))
              (Real.sin (cx / 2 * 2 ^ (m + k + 1) * π))
              (Real.sin (cy / 2 * 2 ^ (m + k + 1) * π)) / 2 ^ (m + k + 1) := by
  intro n
  induction n with
  | zero => intro m; simp [octaveLoop]
  | succ n ih =>
      intro m
      have h2 : (2 : ℝ) ^ m * 2 = (2 : ℝ) ^ (m + 1) := by rw [pow_succ]
      rw [Finset.sum_range_succ']
      simp only [octaveLoop]
      rw [h2, ih (m + 1)]
      have hsum :
          (∑ k in Finset.range n,
            noise (Real.cos (cx / 2 * 2 ^ (m + 1 + k + 1) * π))
                (Real.cos (cy / 2 * 2 ^ (m + 1 + k + 1) * π))
                (Real.sin (cx / 2 * 2 ^ (m + 1 + k + 1) * π))
                (Real.sin (cy / 2 * 2 ^ (m + 1 + k + 1) * π)) / 2 ^ (m + 1 + k + 1)) =
          ∑ k in Finset.range n,
            noise (Real.cos (cx / 2 * 2 ^ (m + (k + 1) + 1) * π))
                (Real.cos (cy / 2 * 2 ^ (m + (k + 1) + 1) * π))
                (Real.sin (cx / 2 * 2 ^ (m + (k + 1) + 1) * π))
                (Real.sin (cy / 2 * 2 ^ (m + (k + 1) + 1) * π)) / 2 ^ (m + (k + 1) + 1) :=
        Finset.sum_congr rfl fun k _ => by
          rw [show m + 1 + k + 1 = m + (k + 1) + 1 from by omega]
      rw [hsum, show m + 0 + 1 = m + 1 from by omega]
      ring

/-- Base-octave variant of `cos_shift4` (frequency multiplier 1, as it
appears without an explicit factor in the source). -/
lemma cos_shift4_base (x : ℝ) : Real.cos ((x + 4) / 2 * π) = Real.cos (x / 2 * π) := by
  have h := cos_shift4 x 1 1 (by norm_num)
  simpa using h

/-- Base-octave variant of `sin_shift4`. -/
lemma sin_shift4_base (x : ℝ) : Real.sin ((x + 4) / 2 * π) = Real.sin (x / 2 * π) := by
  have h := sin_shift4 x 1 1 (by norm_num)
  simpa using h

/-- Reindexing a sum over `Icc 1 n` as a sum over `range n`. -/
lemma sum_Icc_one (f : ℕ → ℝ) (n : ℕ) :
    ∑ k in Finset.Icc 1 n, f k = ∑ k in Finset.range n, f (k + 1) := by
  induction n with
  | zero => simp
  | succ n ih =>
      rw [Finset.sum_Icc_succ_top (by omega), ih, Finset.sum_range_succ]

/-- Below the wrap-around width the `uint` shift is the exact power of two. -/
lemma goUintShift_eq (z : ℕ) (hz : z ≤ 63) : goUintShift z = 2 ^ z :=
  Nat.mod_eq_of_lt (Nat.pow_lt_pow_right (by norm_num) (by omega))

/-- The real-valued divisor used by `tileExtent`, for zooms below the wrap. -/
lemma goUintShift_cast (z : ℕ) (hz : z ≤ 63) :
    ((goUintShift z : ℕ) : ℝ) = (2 : ℝ) ^ z := by
  rw [goUintShift_eq z hz]
  push_cast
  ring

/-- Left-limit of a piecewise function along `𝓝[<] b`, read off from the
band law `g` it agrees with on `(lo, b)`. -/
lemma tendsto_left_of_eqOn (f g : ℝ → ℝ) (lo b : ℝ) (hlo : lo < b) (hg : Continuous g)
    (hfg : ∀ v, v ∈ Set.Ioo lo b → f v = g v) :
    Filter.Tendsto f (nhdsWithin b (Set.Iio b)) (nhds (g b)) := by
  have h1 : Filter.Tendsto g (nhdsWithin b (Set.Iio b)) (nhds (g b)) :=
    (hg.tendsto b).mono_left nhdsWithin_le_nhds
  apply Filter.Tendsto.congr' _ h1
  filter_upwards [Ioo_mem_nhdsWithin_Iio' hlo] with v hv
  exact (hfg v hv).symm

/-- A piecewise function is left-continuous at a band boundary when the
previous band's law extends continuously to the boundary value. -/
lemma contWithinAt_left_of_eqOn (f g : ℝ → ℝ) (lo b : ℝ) (hlo : lo < b) (hg : Continuous g)
    (hfg : ∀ v, v ∈ Set.Ioo lo b → f v = g v) (heq : g b = f b) :
    ContinuousWithinAt f (Set.Iio b) b := by
  have h := tendsto_left_of_eqOn f g lo b hlo hg hfg
  rw [heq] at h
  exact h

/-- A piecewise function is NOT left-continuous at a band boundary when the
previous band's law disagrees with the boundary value (the left limit is
unique since `𝓝[<] b` is nontrivial on `ℝ`). -/
lemma not_contWithinAt_left (f g : ℝ → ℝ) (lo b : ℝ) (hlo : lo < b) (hg : Continuous g)
    (hfg : ∀ v, v ∈ Set.Ioo lo b → f v = g v) (hne : g b ≠ f b) :
    ¬ ContinuousWithinAt f (Set.Iio b) b := fun hc =>
  hne (tendsto_nhds_unique (tendsto_left_of_eqOn f g lo b hlo hg hfg) hc)

/-- Splitting a maximal digit run: `spanDigits` on a digit list followed by
a non-digit-headed remainder returns exactly that split. -/
lemma spanDigits_append : ∀ (l r : List Char), (∀ c ∈ l, c.isDigit = true) →
    (∀ hd, r.head? = some hd → hd.isDigit = false) → spanDigits (l ++ r) = (l, r)
  | [], r, _, hr => by
      cases r with
      | nil => rfl
      | cons hd tl =>
          have h := hr hd rfl
          simp only [List.nil_append, spanDigits, h]
          simp
  | c :: cs, r, hl, hr => by
      have hc : c.isDigit = true := hl c (List.mem_cons_self c cs)
      have ih := spanDigits_append cs r (fun d hd => hl d (List.mem_cons_of_mem c hd)) hr
      simp only [List.cons_append, spanDigits, hc, if_true, List.append_eq] at ih ⊢
      rw [ih]

/-- A well-formed path `/z/x/y.png` built from three nonempty digit runs is
matched by the path regex, capturing exactly the three runs. -/
lemma matchPath_wellFormed (s1 s2 s3 : List Char)
    (h1 : s1 ≠ []) (d1 : ∀ c ∈ s1, c.isDigit = true)
    (h2 : s2 ≠ []) (d2 : ∀ c ∈ s2, c.isDigit = true)
    (h3 : s3 ≠ []) (d3 : ∀ c ∈ s3, c.isDigit = true) :
    matchPath ('/' :: (s1 ++ '/' :: (s2 ++ '/' :: (s3 ++ ['.', 'p', 'n', 'g'])))) =
      some (s1, s2, s3) := by
  have e1 := spanDigits_append s1 ('/' :: (s2 ++ '/' :: (s3 ++ ['.', 'p', 'n', 'g']))) d1
    (fun hd h => by simp only [List.head?_cons, Option.some.injEq] at h; rw [← h]; rfl)
  have e2 := spanDigits_append s2 ('/' :: (s3 ++ ['.', 'p', 'n', 'g'])) d2
    (fun hd h => by simp only [List.head?_cons, Option.some.injEq] at h; rw [← h]; rfl)
  have e3 := spanDigits_append s3 ['.', 'p', 'n', 'g'] d3
    (fun hd h => by simp only [List.head?_cons, Option.some.injEq] at h; rw [← h]; rfl)
  simp only [matchPath, e1, e2, e3, h1, h2, h3]
  simp
  exact ⟨h1, h2, h3⟩

/-- Successful `Atoi` on a digit run with value within 64-bit `int` range. -/
lemma goAtoi_small (s : List Char) (h : natFromDigits s ≤ 2 ^ 63 - 1) :
    goAtoi s = some (natFromDigits s) := if_pos h

/-- Failing `Atoi` on a digit run whose value overflows 64-bit `int`. -/
lemma goAtoi_big (s : List Char) (h : ¬ natFromDigits s ≤ 2 ^ 63 - 1) :
    goAtoi s = none := if_neg h

/-- Full characterisation of the validation stage on a matched path: the
request is accepted exactly when the zoom fits below the 64-bit shift
overflow (`z ≤ 62`) and both coordinates are below `2^z`. -/
lemma extract_of_matched (path : String) (s1 s2 s3 : List Char)
    (hm : matchPath path.data = some (s1, s2, s3)) :
    extractTileCoords path =
      if natFromDigits s1 ≤ 62 ∧ natFromDigits s2 < 2 ^ natFromDigits s1 ∧
          natFromDigits s3 < 2 ^ natFromDigits s1 then
        some ⟨natFromDigits s1, natFromDigits s2, natFromDigits s3⟩
      else none := by
  unfold extractTileCoords
  rw [hm]
  dsimp only
  by_cases hz : natFromDigits s1 ≤ 2 ^ 63 - 1
  case neg =>
    rw [goAtoi_big s1 hz]
    dsimp only
    rw [if_neg]
    rintro ⟨h62, -, -⟩
    norm_num at hz
    omega
  case pos =>
  rw [goAtoi_small s1 hz]
  dsimp only
  by_cases hx : natFromDigits s2 ≤ 2 ^ 63 - 1
  case neg =>
    rw [goAtoi_big s2 hx]
    dsimp only
    rw [if_neg]
    rintro ⟨h62, hlt, -⟩
    have hp : (2 : ℕ) ^ natFromDigits s1 ≤ 2 ^ 62 := Nat.pow_le_pow_right (by norm_num) h62
    norm_num at hx
    have : (2 : ℕ) ^ 62 ≤ 2 ^ 63 - 1 := by norm_num
    omega
  case pos =>
  rw [goAtoi_small s2 hx]
  dsimp only
  by_cases hy : natFromDigits s3 ≤ 2 ^ 63 - 1
  case neg =>
    rw [goAtoi_big s3 hy]
    dsimp only
    rw [if_neg]
    rintro ⟨h62, -, hlt⟩
    have hp : (2 : ℕ) ^ natFromDigits s1 ≤ 2 ^ 62 := Nat.pow_le_pow_right (by norm_num) h62
    norm_num at hy
    have : (2 : ℕ) ^ 62 ≤ 2 ^ 63 - 1 := by norm_num
    omega
  case pos =>
  rw [goAtoi_small s3 hy]
  dsimp only
  set z := natFromDigits s1
  set x := natFromDigits s2
  set y := natFromDigits s3
  by_cases h62 : z ≤ 62
  · have hmx : goShiftOne z = 2 ^ z := if_pos (by omega)
    simp only [hmx]
    by_cases hcond : x < 2 ^ z ∧ y < 2 ^ z
    · rw [if_neg, if_pos ⟨h62, hcond.1, hcond.2⟩]
      rintro (h | h | h | h)
      · exact absurd h (not_lt.mpr (Int.ofNat_nonneg _))
      · have : (2 : ℕ) ^ z ≤ x := by exact_mod_cast h
        exact absurd this (not_le.mpr hcond.1)
      · exact absurd h (not_lt.mpr (Int.ofNat_nonneg _))
      · have : (2 : ℕ) ^ z ≤ y := by exact_mod_cast h
        exact absurd this (not_le.mpr hcond.2)
    · rw [if_pos, if_neg (fun hAll => hcond ⟨hAll.2.1, hAll.2.2⟩)]
      rw [not_and_or] at hcond
      rcases hcond with h | h
      · right; left
        have : (2 : ℕ) ^ z ≤ x := not_lt.mp h
        exact_mod_cast this
      · right; right; right
        have : (2 : ℕ) ^ z ≤ y := not_lt.mp h
        exact_mod_cast this
  · have hmx : goShiftOne z ≤ 0 := by
      unfold goShiftOne
      rw [if_neg (by omega)]
      split_ifs with h63
      · norm_num
      · exact le_refl 0
    rw [if_pos, if_neg (fun hAll => h62 hAll.1)]
    right; left
    have h0 : (0 : ℤ) ≤ (x : ℤ) := Int.ofNat_nonneg x
    omega

/-- A range guard `if v < 0 || v > 1.0 { panic }` passes for `v ∈ [0, 1]`. -/
lemma guard_pass (v : ℝ) (o : Option Color) (h0 : 0 ≤ v) (h1 : v ≤ 1) :
    (if v < 0 ∨ v > 1.0 then none else o) = o := by
  have h1' : ¬ v > 1.0 := by norm_num; linarith
  have h0' : ¬ v < 0 := not_lt.mpr h0
  rw [if_neg (not_or.mpr ⟨h0', h1'⟩)]

/-- For `hueAdj ≤ 6` the hue switch always selects a branch (the `default`
panic is unreachable) and every selected component lies in `[0, c]`. -/
lemma hueSector_bounds (hueAdj c x : ℝ) (h6 : hueAdj ≤ 6) (hc0 : 0 ≤ c)
    (hx0 : 0 ≤ x) (hxc : x ≤ c) :
    ∃ p : ℝ × ℝ × ℝ, hueSector hueAdj c x = some p ∧
      0 ≤ p.1 ∧ p.1 ≤ c ∧ 0 ≤ p.2.1 ∧ p.2.1 ≤ c ∧ 0 ≤ p.2.2 ∧ p.2.2 ≤ c := by
  unfold hueSector
  split_ifs with a1 a2 a3 a4 a5
  · exact ⟨(c, x, 0), rfl, hc0, le_refl c, hx0, hxc, le_refl 0, hc0⟩
  · exact ⟨(x, c, 0), rfl, hx0, hxc, hc0, le_refl c, le_refl 0, hc0⟩
  · exact ⟨(0, c, x), rfl, le_refl 0, hc0, hc0, le_refl c, hx0, hxc⟩
  · exact ⟨(0, x, c), rfl, le_refl 0, hc0, hx0, hxc, hc0, le_refl c⟩
  · exact ⟨(x, 0, c), rfl, hx0, hxc, le_refl 0, hc0, hc0, le_refl c⟩
  · exact ⟨(c, 0, x), rfl, hc0, le_refl c, le_refl 0, hc0, hx0, hxc⟩

/-! ### The claims -/

/-- C8 counterexample: the triple `(z, x, y) = (64, 5, 5)` satisfies the
claimed invariant `0 ≤ x, y < 2^z`, yet the request `/64/5/5.png` is
rejected, because `1 << 64` overflows to `0` at 64-bit `int` width. -/
theorem extractTileCoords_rejects_inBounds_triple :
    (5 : ℕ) < 2 ^ 64 ∧ extractTileCoords "/64/5/5.png" = none :=
  ⟨by norm_num, by decide⟩

/-- C8 (amended): a well-formed path of three nonempty decimal runs is
accepted, with the triple returned unchanged, exactly when `z ≤ 62` and
`x < 2^z` and `y < 2^z` (zooms 63 and above are always rejected because the
Go shift `1 << z` overflows); a path the regex does not match is always
rejected; and `/3/8/8.png` in particular is rejected since `8 ≥ 2^3`. -/
theorem extractTileCoords_spec (s1 s2 s3 : List Char)
    (h1 : s1 ≠ []) (d1 : ∀ c ∈ s1, c.isDigit = true)
    (h2 : s2 ≠ []) (d2 : ∀ c ∈ s2, c.isDigit = true)
    (h3 : s3 ≠ []) (d3 : ∀ c ∈ s3, c.isDigit = true) :
    (extractTileCoords
        (String.mk ('/' :: (s1 ++ '/' :: (s2 ++ '/' :: (s3 ++ ['.', 'p', 'n', 'g']))))) =
      if natFromDigits s1 ≤ 62 ∧ natFromDigits s2 < 2 ^ natFromDigits s1 ∧
          natFromDigits s3 < 2 ^ natFromDigits s1 then
        some ⟨natFromDigits s1, natFromDigits s2, natFromDigits s3⟩
      else none) ∧
    (∀ p : String, matchPath p.data = none → extractTileCoords p = none) ∧
    extractTileCoords "/3/8/8.png" = none := by
  refine ⟨?_, ?_, by decide⟩
  · exact extract_of_matched _ s1 s2 s3 (matchPath_wellFormed s1 s2 s3 h1 d1 h2 d2 h3 d3)
  · intro p hp
    unfold extractTileCoords
    rw [hp]

/-- Witness for C8 at the concrete request `/3/1/1.png`. -/
theorem extractTileCoords_spec_witness :
    ((['3'] : List Char) ≠ [] ∧ (['1'] : List Char) ≠ [] ∧
      (∀ c ∈ (['3'] : List Char), c.isDigit = true) ∧
      (∀ c ∈ (['1'] : List Char), c.isDigit = true)) ∧
    extractTileCoords
        (String.mk ('/' :: (['3'] ++ '/' :: (['1'] ++ '/' :: (['1'] ++ ['.', 'p', 'n', 'g']))))) =
      some ⟨3, 1, 1⟩ := by
  refine ⟨⟨by decide, by decide, by decide, by decide⟩, ?_⟩
  have h := (extractTileCoords_spec ['3'] ['1'] ['1'] (by decide) (by decide) (by decide)
    (by decide) (by decide) (by decide)).1
  rw [h]
  decide

/-- C10: For hue in `[0, 360]`, saturation and lightness in `[0, 1]`, the
HSL-to-RGB helper reaches no panic — the parameter checks pass, the hue
switch always selects a sector, and the computed fractional `r`, `g`, `b`
all lie within `[0, 1]` so the final range panics are not taken — and a
colour with alpha 255 is returned. -/
theorem hslToRGB_no_panic (hue saturation lightness : ℝ)
    (hh0 : 0 ≤ hue) (hh1 : hue ≤ 360) (hs0 : 0 ≤ saturation) (hs1 : saturation ≤ 1)
    (hl0 : 0 ≤ lightness) (hl1 : lightness ≤ 1) :
    ∃ col, hslToRGB hue saturation lightness = some col ∧ col.a = 255 := by
  unfold hslToRGB
  rw [if_neg (not_or.mpr ⟨not_lt.mpr hh0, not_lt.mpr hh1⟩),
      if_neg (not_or.mpr ⟨not_lt.mpr hs0, not_lt.mpr hs1⟩),
      if_neg (not_or.mpr ⟨not_lt.mpr hl0, not_lt.mpr hl1⟩)]
  dsimp only
  have habs : |2 * lightness - 1| ≤ 1 := abs_le.mpr ⟨by linarith, by linarith⟩
  have hc0 : 0 ≤ (1 - |2 * lightness - 1|) * saturation := mul_nonneg (by linarith) hs0
  have hcle : (1 - |2 * lightness - 1|) * saturation ≤ 1 - |2 * lightness - 1| :=
    mul_le_of_le_one_right (by linarith) hs1
  have hc2l : (1 - |2 * lightness - 1|) * saturation ≤ 2 * lightness := by
    have := neg_abs_le (2 * lightness - 1)
    linarith
  have hc2l' : (1 - |2 * lightness - 1|) * saturation ≤ 2 - 2 * lightness := by
    have := le_abs_self (2 * lightness - 1)
    linarith
  have hq0 : (0 : ℝ) ≤ hue / 60 / 2 := by positivity
  have hmod : goMod (hue / 60) 2 = 2 * Int.fract (hue / 60 / 2) := by
    unfold goMod truncToZero
    rw [if_pos hq0, Int.fract]
    push_cast
    ring
  have hmod0 : 0 ≤ goMod (hue / 60) 2 := by
    rw [hmod]
    have := Int.fract_nonneg (hue / 60 / 2)
    linarith
  have hmod2 : goMod (hue / 60) 2 ≤ 2 := by
    rw [hmod]
    have := Int.fract_lt_one (hue / 60 / 2)
    linarith
  have hfac : |goMod (hue / 60) 2 - 1| ≤ 1 := abs_le.mpr ⟨by linarith, by linarith⟩
  have hx0 : 0 ≤ (1 - |2 * lightness - 1|) * saturation * (1 - |goMod (hue / 60) 2 - 1|) :=
    mul_nonneg hc0 (by linarith)
  have hxc : (1 - |2 * lightness - 1|) * saturation * (1 - |goMod (hue / 60) 2 - 1|) ≤
      (1 - |2 * lightness - 1|) * saturation :=
    mul_le_of_le_one_right hc0 (by
      have := abs_nonneg (goMod (hue / 60) 2 - 1)
      linarith)
  obtain ⟨p, hp, b1, b2, b3, b4, b5, b6⟩ :=
    hueSector_bounds (hue / 60) ((1 - |2 * lightness - 1|) * saturation)
      ((1 - |2 * lightness - 1|) * saturation * (1 - |goMod (hue / 60) 2 - 1|))
      (by linarith) hc0 hx0 hxc
  rw [hp]
  dsimp only
  rw [guard_pass _ _ (by linarith) (by linarith),
      guard_pass _ _ (by linarith) (by linarith),
      guard_pass _ _ (by linarith) (by linarith)]
  exact ⟨_, rfl, rfl⟩

/-- Witness for C10 at the concrete parameters `(0, 0, 0)`. -/
theorem hslToRGB_no_panic_witness :
    ((0 : ℝ) ≤ 0 ∧ (0 : ℝ) ≤ 360 ∧ (0 : ℝ) ≤ 1) ∧
    ∃ col, hslToRGB 0 0 0 = some col ∧ col.a = 255 :=
  ⟨⟨le_refl 0, by norm_num, by norm_num⟩,
    hslToRGB_no_panic 0 0 0 (le_refl 0) (by norm_num) (le_refl 0) (by norm_num)
      (le_refl 0) (by norm_num)⟩

/-- C6 counterexample: the claim asserts continuity at every band boundary
except the sand/grassland one (0.201); but at the greenery/mountains
boundary 0.60 the red channel jumps from left limit 0.06 to value 0.5, so
it is not left-continuous there. -/
theorem colR_discont_at_sixtyPercent :
    ¬ ContinuousWithinAt colR (Set.Iio (0.60 : ℝ)) 0.60 := by
  apply not_contWithinAt_left colR (fun v => 0.2 * (0.9 - v)) 0.40 0.60 (by norm_num)
    (continuous_const.mul (continuous_const.sub continuous_id))
  · intro v hv
    obtain ⟨ha, hb⟩ := hv
    simp only [colR, colourFrac]
    rw [if_neg (by linarith : ¬ v < -0.1), if_neg (by linarith : ¬ v < 0.2),
        if_neg (by linarith : ¬ v < 0.201), if_neg (by linarith : ¬ v < 0.40),
        if_pos (by linarith : v < 0.60)]
    norm_num
  · norm_num [colR, colourFrac]

/-- C6 (amended): the palette's fractional channels are left-continuous at
the deep/shallow-water boundary −0.1, but discontinuous at every other band
boundary: 0.2, 0.201 (the intentional sand/grassland jump), 0.40, 0.60,
0.90 and 1.2. -/
theorem palette_boundary_continuity :
    (ContinuousWithinAt colR (Set.Iio (-0.1 : ℝ)) (-0.1) ∧
     ContinuousWithinAt colG (Set.Iio (-0.1 : ℝ)) (-0.1) ∧
     ContinuousWithinAt colB (Set.Iio (-0.1 : ℝ)) (-0.1)) ∧
    ¬ ContinuousWithinAt colR (Set.Iio (0.2 : ℝ)) 0.2 ∧
    ¬ ContinuousWithinAt colG (Set.Iio (0.201 : ℝ)) 0.201 ∧
    ¬ ContinuousWithinAt colR (Set.Iio (0.40 : ℝ)) 0.40 ∧
    ¬ ContinuousWithinAt colR (Set.Iio (0.60 : ℝ)) 0.60 ∧
    ¬ ContinuousWithinAt colR (Set.Iio (0.90 : ℝ)) 0.90 ∧
    ¬ ContinuousWithinAt colR (Set.Iio (1.2 : ℝ)) 1.2 := by
  refine ⟨⟨?_, ?_, ?_⟩, ?_, ?_, ?_, ?_, ?_, ?_⟩
  · apply contWithinAt_left_of_eqOn colR (fun _ => 0) (-1) (-0.1) (by norm_num) continuous_const
    · intro v hv
      obtain ⟨ha, hb⟩ := hv
      simp only [colR, colourFrac]
      rw [if_pos (by linarith : v < -0.1)]
      norm_num
    · norm_num [colR, colourFrac]
  · apply contWithinAt_left_of_eqOn colG (fun _ => 0) (-1) (-0.1) (by norm_num) continuous_const
    · intro v hv
      obtain ⟨ha, hb⟩ := hv
      simp only [colG, colourFrac]
      rw [if_pos (by linarith : v < -0.1)]
      norm_num
    · norm_num [colG, colourFrac]
  · apply contWithinAt_left_of_eqOn colB (fun _ => 0.4) (-1) (-0.1) (by norm_num) continuous_const
    · intro v hv
      obtain ⟨ha, hb⟩ := hv
      simp only [colB, colourFrac]
      rw [if_pos (by linarith : v < -0.1)]
      all_goals norm_num
    · norm_num [colB, colourFrac]
  · apply not_contWithinAt_left colR (fun v => 0.1 + v) (-0.1) 0.2 (by norm_num)
      (continuous_const.add continuous_id)
    · intro v hv
      obtain ⟨ha, hb⟩ := hv
      simp only [colR, colourFrac]
      rw [if_neg (by linarith : ¬ v < -0.1), if_pos (by linarith : v < 0.2)]
      norm_num
    · norm_num [colR, colourFrac]
  · apply not_contWithinAt_left colG (fun v => 500 * (0.202 - v)) 0.2 0.201 (by norm_num)
      (continuous_const.mul (continuous_const.sub continuous_id))
    · intro v hv
      obtain ⟨ha, hb⟩ := hv
      simp only [colG, colourFrac]
      rw [if_neg (by linarith : ¬ v < -0.1), if_neg (by linarith : ¬ v < 0.2),
          if_pos (by linarith : v < 0.201)]
      all_goals norm_num
    · norm_num [colG, colourFrac]
  · apply not_contWithinAt_left colR (fun v => 1.2 * (0.60 - v)) 0.201 0.40 (by norm_num)
      (continuous_const.mul (continuous_const.sub continuous_id))
    · intro v hv
      obtain ⟨ha, hb⟩ := hv
      simp only [colR, colourFrac]
      rw [if_neg (by linarith : ¬ v < -0.1), if_neg (by linarith : ¬ v < 0.2),
          if_neg (by linarith : ¬ v < 0.201), if_pos (by linarith : v < 0.40)]
      norm_num
    · norm_num [colR, colourFrac]
  · apply not_contWithinAt_left colR (fun v => 0.2 * (0.9 - v)) 0.40 0.60 (by norm_num)
      (continuous_const.mul (continuous_const.sub continuous_id))
    · intro v hv
      obtain ⟨ha, hb⟩ := hv
      simp only [colR, colourFrac]
      rw [if_neg (by linarith : ¬ v < -0.1), if_neg (by linarith : ¬ v < 0.2),
          if_neg (by linarith : ¬ v < 0.201), if_neg (by linarith : ¬ v < 0.40),
          if_pos (by linarith : v < 0.60)]
      norm_num
    · norm_num [colR, colourFrac]
  · apply not_contWithinAt_left colR (fun v => v - 0.1) 0.60 0.90 (by norm_num)
      (continuous_id.sub continuous_const)
    · intro v hv
      obtain ⟨ha, hb⟩ := hv
      simp only [colR, colourFrac]
      rw [if_neg (by linarith : ¬ v < -0.1), if_neg (by linarith : ¬ v < 0.2),
          if_neg (by linarith : ¬ v < 0.201), if_neg (by linarith : ¬ v < 0.40),
          if_neg (by linarith : ¬ v < 0.60), if_pos (by linarith : v < 0.90)]
      all_goals norm_num
    · norm_num [colR, colourFrac]
  · apply not_contWithinAt_left colR (fun v => 0.8 * v) 0.90 1.2 (by norm_num)
      (continuous_const.mul continuous_id)
    · intro v hv
      obtain ⟨ha, hb⟩ := hv
      simp only [colR, colourFrac]
      rw [if_neg (by linarith : ¬ v < -0.1), if_neg (by linarith : ¬ v < 0.2),
          if_neg (by linarith : ¬ v < 0.201), if_neg (by linarith : ¬ v < 0.40),
          if_neg (by linarith : ¬ v < 0.60), if_neg (by linarith : ¬ v < 0.90),
          if_pos (by linarith : v < 1.2)]
      all_goals norm_num
    · norm_num [colR, colourFrac]

/-- C1: For every world point `c` and tile coordinate, `simplexTorus`
returns exactly the base-octave noise at
`(cos(c.x·π/2), cos(c.y·π/2), sin(c.x·π/2), sin(c.y·π/2))` plus, for each
octave `k = 1 .. Z+16`, the noise at the same expressions with the angle
multiplied by `2^k`, divided by `2^k`, all summed into one scalar. -/
theorem simplexTorus_eq_claimTorusSum (noise : ℝ → ℝ → ℝ → ℝ → ℝ)
    (c : Vector) (coords : TileCoords) :
    simplexTorus noise c coords = claimTorusSum noise c coords.Z := by
  have hloop := octaveLoop_eq_sum noise c.X c.Y (coords.Z + 16) 0
  simp only [Nat.zero_add, pow_zero] at hloop
  simp only [simplexTorus, claimTorusSum]
  rw [hloop, sum_Icc_one]
  congr 1
  · rw [show c.X / 2 * π = c.X * π / 2 from by ring,
        show c.Y / 2 * π = c.Y * π / 2 from by ring]
  · exact Finset.sum_congr rfl fun k _ => by
      rw [show c.X / 2 * 2 ^ (k + 1) * π = c.X * π / 2 * 2 ^ (k + 1) from by ring,
          show c.Y / 2 * 2 ^ (k + 1) * π = c.Y * π / 2 * 2 ^ (k + 1) from by ring]

/-- C2: The elevation field has world period 4 in each axis: shifting
the `x`-coordinate (resp. `y`-coordinate) by one full world period leaves
the value of `simplexTorus` exactly unchanged (over the reals the equality
is exact, hence within any floating-point tolerance). -/
theorem simplexTorus_world_wrap (noise : ℝ → ℝ → ℝ → ℝ → ℝ) (x y : ℝ)
    (coords : TileCoords) :
    simplexTorus noise ⟨x + 4, y⟩ coords = simplexTorus noise ⟨x, y⟩ coords ∧
    simplexTorus noise ⟨x, y + 4⟩ coords = simplexTorus noise ⟨x, y⟩ coords := by
  have hx4 := octaveLoop_eq_sum noise (x + 4) y (coords.Z + 16) 0
  have hy4 := octaveLoop_eq_sum noise x (y + 4) (coords.Z + 16) 0
  have hb := octaveLoop_eq_sum noise x y (coords.Z + 16) 0
  simp only [Nat.zero_add, pow_zero] at hx4 hy4 hb
  constructor
  · simp only [simplexTorus]
    rw [hx4, hb, cos_shift4_base, sin_shift4_base]
    congr 1
    exact Finset.sum_congr rfl fun k _ => by
      rw [cos_shift4 x ((2 : ℝ) ^ (k + 1)) (2 ^ (k + 1)) (by push_cast; ring),
          sin_shift4 x ((2 : ℝ) ^ (k + 1)) (2 ^ (k + 1)) (by push_cast; ring)]
  · simp only [simplexTorus]
    rw [hy4, hb, cos_shift4_base, sin_shift4_base]
    congr 1
    exact Finset.sum_congr rfl fun k _ => by
      rw [cos_shift4 y ((2 : ℝ) ^ (k + 1)) (2 ^ (k + 1)) (by push_cast; ring),
          sin_shift4 y ((2 : ℝ) ^ (k + 1)) (2 ^ (k + 1)) (by push_cast; ring)]

/-- C3: The elevation field depends only on the world point and the
tile's zoom level: two tile coordinates with the same zoom but arbitrary
columns and rows give identical `simplexTorus` values at every world point,
so adjacent tiles evaluating a shared boundary coordinate agree exactly. -/
theorem simplexTorus_zoom_only (noise : ℝ → ℝ → ℝ → ℝ → ℝ) (c : Vector)
    (z x₁ y₁ x₂ y₂ : ℕ) :
    simplexTorus noise c ⟨z, x₁, y₁⟩ = simplexTorus noise c ⟨z, x₂, y₂⟩ := rfl

/-- C7: The rasterizer fills every pixel `(px, py)` of the 256×256
buffer with the palette colour of the elevation at
`wx = Min.X + (Max.X − Min.X)·px/256`, `wy = Min.Y + (Max.X − Min.X)·py/256`
— the `y` interpolation using the x-axis span of the tile's extent. -/
theorem renderTile_pixel (noise : ℝ → ℝ → ℝ → ℝ → ℝ) (coords : TileCoords)
    (px py : Fin 256) :
    renderTile noise coords px py =
      colouriseByValue (simplexTorus noise
        ⟨(tileExtent coords).Min.X +
            ((tileExtent coords).Max.X - (tileExtent coords).Min.X) * (px : ℝ) / 256,
         (tileExtent coords).Min.Y +
            ((tileExtent coords).Max.X - (tileExtent coords).Min.X) * (py : ℝ) / 256⟩
        coords) := rfl

/-- C9: Rendering is deterministic: with the same noise-primitive state
(pointwise-equal noise functions), two invocations of `renderTile` on the
same tile coordinate produce identical pixel buffers. -/
theorem renderTile_deterministic (n₁ n₂ : ℝ → ℝ → ℝ → ℝ → ℝ)
    (coords : TileCoords) (h : ∀ a b c d, n₁ a b c d = n₂ a b c d) :
    renderTile n₁ coords = renderTile n₂ coords := by
  have hn : n₁ = n₂ := funext fun a => funext fun b => funext fun c => funext fun d => h a b c d
  rw [hn]

/-- Witness for C9 at the concrete noise function `zeroNoise` and tile
`(0,0,0)`. -/
theorem renderTile_deterministic_witness :
    (∀ a b c d, zeroNoise a b c d = zeroNoise a b c d) ∧
    renderTile zeroNoise ⟨0, 0, 0⟩ = renderTile zeroNoise ⟨0, 0, 0⟩ :=
  ⟨fun _ _ _ _ => rfl,
    renderTile_deterministic zeroNoise zeroNoise ⟨0, 0, 0⟩ fun _ _ _ _ => rfl⟩

/-- C4 counterexample: the claim's validity domain puts no upper bound on
`z`, but at `(z, x, y) = (64, 0, 0)` (valid: `0 < 2^64`) the Go shift
`uint(1) << 64` wraps to `0`, the program divides by `0.0` and the
resulting extent is degenerate: `Min.X < Max.X` fails (in Go the extent is
non-finite, NaN/Inf comparisons are false; in this embedding division by
zero gives `0` and both corners collapse to `-2`). -/
theorem tileExtent_overflow_counterexample :
    (0 : ℕ) < 2 ^ 64 ∧
    ¬ ((tileExtent ⟨64, 0, 0⟩).Min.X < (tileExtent ⟨64, 0, 0⟩).Max.X) := by
  constructor
  · norm_num
  · have h64 : goUintShift 64 = 0 := Nat.mod_self _
    simp only [tileExtent, Vector.Sub, Vector.Scale, h64]
    norm_num

/-- C4 (amended): for every valid `TileCoords` whose zoom also stays below
the 64-bit shift wrap (`Z ≤ 63`), `tileExtent` returns the rectangle
`[4·(X/2^Z − 0.5), 4·((X+1)/2^Z − 0.5)] × [4·(Y/2^Z − 0.5), 4·((Y+1)/2^Z − 0.5)]`;
hence `Min.X < Max.X`, `Min.Y < Max.Y`, both width and height equal `4/2^Z`;
and at zoom 0 the extent is `[-2, 2] × [-2, 2]`. -/
theorem tileExtent_formula (coords : TileCoords) (hz : coords.Z ≤ 63)
    (hx : coords.X < 2 ^ coords.Z) (hy : coords.Y < 2 ^ coords.Z) :
    (tileExtent coords =
      ⟨⟨4 * ((coords.X : ℝ) / 2 ^ coords.Z - 0.5), 4 * ((coords.Y : ℝ) / 2 ^ coords.Z - 0.5)⟩,
       ⟨4 * (((coords.X : ℝ) + 1) / 2 ^ coords.Z - 0.5),
        4 * (((coords.Y : ℝ) + 1) / 2 ^ coords.Z - 0.5)⟩⟩ ∧
     (tileExtent coords).Min.X < (tileExtent coords).Max.X ∧
     (tileExtent coords).Min.Y < (tileExtent coords).Max.Y ∧
     (tileExtent coords).Max.X - (tileExtent coords).Min.X = 4 / 2 ^ coords.Z ∧
     (tileExtent coords).Max.Y - (tileExtent coords).Min.Y = 4 / 2 ^ coords.Z) ∧
    tileExtent ⟨0, 0, 0⟩ = ⟨⟨-2, -2⟩, ⟨2, 2⟩⟩ := by
  have hp : (0 : ℝ) < (2 : ℝ) ^ coords.Z := by positivity
  have hcast := goUintShift_cast coords.Z hz
  have hwx : (tileExtent coords).Max.X - (tileExtent coords).Min.X = 4 / 2 ^ coords.Z := by
    simp only [tileExtent, Vector.Sub, Vector.Scale]
    rw [hcast]
    field_simp
    ring
  have hwy : (tileExtent coords).Max.Y - (tileExtent coords).Min.Y = 4 / 2 ^ coords.Z := by
    simp only [tileExtent, Vector.Sub, Vector.Scale]
    rw [hcast]
    field_simp
    ring
  have hpos : (0 : ℝ) < 4 / 2 ^ coords.Z := by positivity
  constructor
  · refine ⟨?_, by linarith [hwx ▸ hpos], by linarith [hwy ▸ hpos], hwx, hwy⟩
    simp only [tileExtent, Vector.Sub, Vector.Scale, Extent.mk.injEq, Vector.mk.injEq]
    rw [hcast]
    exact ⟨⟨by ring, by ring⟩, by ring, by ring⟩
  · have h0 : ((goUintShift 0 : ℕ) : ℝ) = 1 := by
      rw [goUintShift_eq 0 (by norm_num)]
      norm_num
    simp only [tileExtent, Vector.Sub, Vector.Scale, Extent.mk.injEq, Vector.mk.injEq, h0]
    norm_num

/-- Witness for C4 at the concrete tile `(Z, X, Y) = (1, 0, 0)`. -/
theorem tileExtent_formula_witness :
    (1 : ℕ) ≤ 63 ∧ (0 : ℕ) < 2 ^ 1 ∧ (0 : ℕ) < 2 ^ 1 ∧
    tileExtent ⟨0, 0, 0⟩ = ⟨⟨-2, -2⟩, ⟨2, 2⟩⟩ :=
  ⟨by norm_num, by norm_num, by norm_num,
    (tileExtent_formula ⟨1, 0, 0⟩ (by norm_num) (by norm_num) (by norm_num)).2⟩

/-- C5: For every elevation value, `colouriseByValue` agrees with the
palette as the claim states it: seven ordered bands with the claim's affine
laws, `·255` truncation toward zero without clamping, alpha 255. -/
theorem colouriseByValue_eq_claimPalette (v : ℝ) :
    colouriseByValue v = claimPalette v := by
  simp only [colouriseByValue, colourFrac, claimPalette]
  split_ifs <;>
    (rw [Color.mk.injEq]
     refine ⟨?_, ?_, ?_, rfl⟩ <;> (congr 1 <;> first | ring | norm_num))

end Simplex
